import Mathlib

/-!
Verification development for the RN Nodes Discord VPS bot
(repository sources: src/main.py and src/bot.py).

The two Python files contain near-identical implementations of the IP pool,
the invite-attribution algorithm, the compliant-password generator, and the
user VPS-creation workflow (`create_vps`).  This file gives a shallow
embedding of those functions and proves (or refutes) the specification
claims about them.

File contents are modelled as lists of characters (a missing file is `none`);
Python `readlines` is modelled by `splitLinesKeepEnds`, `str.strip` by
`pyStrip`, and dictionaries by association lists.
-/

namespace VN

/-! ## IP pool file model
Source: `get_and_remove_first_ip` (src/main.py lines 214-254, identical in
src/bot.py lines 208-249).  -/

/-- One raw line of a file, as produced by Python `readlines` (the trailing
newline, when present, is part of the line). -/
abbrev Line := List Char

/-- ASCII whitespace recognised by Python `str.strip()` with no argument. -/
def isPySpace (c : Char) : Bool :=
  c = ' ' || c = '\t' || c = '\n' || c = '\r' || c = '\x0b' || c = '\x0c'

/-- Python `line.strip()`: remove leading and trailing whitespace. -/
def pyStrip (l : List Char) : List Char :=
  ((l.dropWhile isPySpace).reverse.dropWhile isPySpace).reverse

/-- Python `s.startswith('#')`. -/
def startsWithHash : List Char → Bool
  | [] => false
  | c :: _ => c = '#'

/-- The dispense loop's test `if stripped_line and not stripped_line.startswith('#')`:
a line is eligible when its stripped form is non-empty and not a comment. -/
def isEligibleLine (l : Line) : Bool :=
  !(pyStrip l).isEmpty && !startsWithHash (pyStrip l)

/-- Python `f.readlines()`: split a file's contents into lines, each line
keeping its terminating newline; a final fragment without a newline is kept
as a last line. -/
def splitLinesKeepEnds : List Char → List (List Char)
  | [] => []
  | c :: cs =>
    if c = '\n' then ['\n'] :: splitLinesKeepEnds cs
    else
      match splitLinesKeepEnds cs with
      | [] => [[c]]
      | line :: rest => (c :: line) :: rest

/-- Python `f.writelines(lines)`: concatenate the raw lines back into file
contents. -/
def joinLines (ls : List (List Char)) : List Char := ls.flatten

/-- The scanning loop of `get_and_remove_first_ip` (src/main.py lines 228-237):
walk the lines; before an eligible line is found, comment/blank lines are
skipped (dropped); the first eligible line becomes `found_ip` (stripped); every
line after it is appended to `lines_to_keep`.  The two Python locals
`found_ip`/`ip_found_and_skipped` are merged into one `Option` (they are always
set together). -/
def ipLoop : List Line → Option Line → List Line → Option Line × List Line
  | [], found_ip, keep => (found_ip, keep)
  | line :: rest, found_ip, keep =>
    match found_ip with
    | none =>
      if isEligibleLine line then ipLoop rest (some (pyStrip line)) keep
      else ipLoop rest none keep
    | some ip => ipLoop rest (some ip) (keep ++ [line])

/-- The comment header written when the pool file does not exist
(src/main.py line 222). -/
def ipFileHeader : List Char :=
  "# Add one IP address per line. Lines starting with # are comments.\n".data

/-- Result of a dispense call: the returned IP (if any) and the pool file's
contents afterwards. -/
structure DispenseResult where
  found_ip : Option Line
  file : Option (List Char)
deriving DecidableEq

/-- Function `get_and_remove_first_ip` (src/main.py lines 214-254): if the file is
missing, create it containing only the comment header and return `None`;
otherwise scan the lines; if an IP was found, rewrite the file with
`lines_to_keep`, else leave the file untouched. -/
def get_and_remove_first_ip (file : Option (List Char)) : DispenseResult :=
  match file with
  | none => ⟨none, some ipFileHeader⟩
  | some content =>
    match ipLoop (splitLinesKeepEnds content) none [] with
    | (some ip, keep) => ⟨some ip, some (joinLines keep)⟩
    | (none, _) => ⟨none, some content⟩

/-- The compensating return used by every terminal branch of `create_vps`
(for example src/main.py lines 1438-1443): open the pool file in append mode
and write a newline, the IP, and a newline.  Append mode creates the file if
missing. -/
def return_ip_to_pool (file : Option (List Char)) (ip : Line) : Option (List Char) :=
  some ((file.getD []) ++ '\n' :: (ip ++ ['\n']))

/-- The eligible (dispensable) entries of a list of raw lines, in order,
each given in stripped form. -/
def eligibleEntriesOfLines (ls : List Line) : List Line :=
  (ls.filter isEligibleLine).map pyStrip

/-- The eligible entries of a pool file's contents. -/
def eligibleEntries (content : List Char) : List Line :=
  eligibleEntriesOfLines (splitLinesKeepEnds content)

/-- Effect of appending one final newline to file contents, described at the
line level: it closes an unterminated last line, or adds a blank line when the
contents already end with a newline (or are empty). -/
def closeLines : List (List Char) → List (List Char)
  | [] => [['\n']]
  | [a] => if a.getLast? = some '\n' then [a, ['\n']] else [a ++ ['\n']]
  | a :: b :: rest => a :: closeLines (b :: rest)

/-- Well-formed output of `splitLinesKeepEnds`: every line is newline-free and
newline-terminated, except that the last line may instead be a non-empty
newline-free fragment. -/
inductive ValidLines : List (List Char) → Prop
  | nil : ValidLines []
  | single (core : List Char) (hnl : '\n' ∉ core) (hne : core ≠ []) :
      ValidLines [core]
  | cons (core : List Char) (hnl : '\n' ∉ core) (rest : List (List Char))
      (hr : ValidLines rest) : ValidLines ((core ++ ['\n']) :: rest)

/-! ## VPS request workflow model
Source: `create_vps` (src/main.py lines 1172-1459; src/bot.py lines
1534-1856).  The two files have the same control flow for everything the
claims concern; the only divergence is the unit conversion in the server
creation payload, which is modelled separately below. -/

/-- The three plan categories a user can select. -/
inductive PlanType
  | paid
  | boost
  | invite
deriving DecidableEq

/-- The facts about a request that `create_vps` branches on between plan
selection and payload construction. -/
structure CreateVpsInput where
  planType : PlanType
  planHasResourceKeys : Bool
  nodeConfigured : Bool
  boostRewardsEnabled : Bool
  inGuild : Bool
  memberFound : Bool
  memberIsBoosting : Bool
  inviteRewardsEnabled : Bool
  invitesRequired : Int
  trackedInvites : Int
deriving DecidableEq

/-- The user-facing abort reasons of the pre-approval part of `create_vps`,
one per early `return` branch. -/
inductive AbortReason
  | paidPlanNotice
  | planConfigError
  | nodeConfigError
  | poolExhausted
  | boostRewardsDisabled
  | boostContextError
  | memberNotFound
  | notBoosting
  | inviteRewardsDisabled
  | inviteContextError
  | insufficientInvites
deriving DecidableEq

/-- Result of the pre-approval phase: the abort reason (none = validation
passed and an approval request will be posted), the pool file afterwards,
whether the dispense operation was invoked, and the IP reserved for the
request. -/
structure ValidationPhaseResult where
  abort : Option AbortReason
  pool : Option (List Char)
  dispenseInvoked : Bool
  reservedIp : Option Line
deriving DecidableEq

/-- The pre-approval phase of `create_vps` in source order (src/main.py lines
1202-1270; src/bot.py lines 1564-1639): paid short-circuit, plan resource-key
check, node/template configuration check, then the dispense call
`get_and_remove_first_ip()`, and only after it the boost/invite eligibility
checks.  Every failed check simply returns; none of the post-dispense failure
branches writes the dispensed IP back to the pool file. -/
def create_vps_validation_phase (inp : CreateVpsInput) (pool : Option (List Char)) :
    ValidationPhaseResult :=
  if inp.planType = PlanType.paid then ⟨some .paidPlanNotice, pool, false, none⟩
  else if ¬ inp.planHasResourceKeys then ⟨some .planConfigError, pool, false, none⟩
  else if ¬ inp.nodeConfigured then ⟨some .nodeConfigError, pool, false, none⟩
  else
    let d := get_and_remove_first_ip pool
    match d.found_ip with
    | none => ⟨some .poolExhausted, d.file, true, none⟩
    | some ip =>
      match inp.planType with
      | .boost =>
        if ¬ inp.boostRewardsEnabled then ⟨some .boostRewardsDisabled, d.file, true, none⟩
        else if ¬ inp.inGuild then ⟨some .boostContextError, d.file, true, none⟩
        else if ¬ inp.memberFound then ⟨some .memberNotFound, d.file, true, none⟩
        else if ¬ inp.memberIsBoosting then ⟨some .notBoosting, d.file, true, none⟩
        else ⟨none, d.file, true, some ip⟩
      | .invite =>
        if ¬ inp.inviteRewardsEnabled then ⟨some .inviteRewardsDisabled, d.file, true, none⟩
        else if ¬ inp.inGuild then ⟨some .inviteContextError, d.file, true, none⟩
        else if inp.trackedInvites < inp.invitesRequired then
          ⟨some .insufficientInvites, d.file, true, none⟩
        else ⟨none, d.file, true, some ip⟩
      | .paid => ⟨some .paidPlanNotice, pool, false, none⟩

/-- Outcome of the admin decision wait (`admin_conf_view.status`): `True`,
`False`, or `None` (timeout). -/
inductive AdminDecision
  | approved
  | denied
  | timedOut
deriving DecidableEq

/-- The terminal states of the post-decision processing. -/
inductive TerminalState
  | created
  | creationFailed
  | deniedReq
  | timedOutReq
deriving DecidableEq

/-- How the requester was notified in a terminal branch: by direct message; by
the raw channel fallback `interaction.followup.send` issued when the DM
raises; or through the exception-swallowing `send_embed` helper
(`send_error_embed`, src/main.py lines 307-345), which catches every error
internally and never propagates one. -/
inductive NotifyRoute
  | directMessage
  | channelFallback
  | guardedEmbed
deriving DecidableEq

/-- Outcome of post-decision processing: terminal state, pool file afterwards,
the notification route attempted for the requester (none when no notification
went out), and whether an uncaught exception escaped the branch before its
remaining statements ran. -/
structure WorkflowOutcome where
  terminal : TerminalState
  pool : Option (List Char)
  notifyRoute : Option NotifyRoute
  uncaught : Bool
deriving DecidableEq

/-- The post-decision processing of `create_vps` (src/main.py lines 1370-1459;
src/bot.py lines 1749-1856).  Approved with a successful panel API call
(Created): DM the details, falling back on `discord.HTTPException` to an
unguarded channel followup (main.py line 1404); the pool file is untouched
either way, even when both sends raise.  Approved with a failed call
(CreationFailed): the requester is notified through the exception-swallowing
`send_error_embed` helper and the admin DM has its own try/except, so this
branch always reaches its file append.  Denied and TimedOut: the DM sits in a
try/except whose handler issues an unguarded `interaction.followup.send`
(main.py lines 1437 and 1453; bot.py lines 1836 and 1851); when the DM and
that fallback both raise, the exception propagates out of the handler and the
file append below it never executes, so the IP is not returned. -/
def process_admin_decision (decision : AdminDecision)
    (apiCreateSucceeds dmSucceeds followupSucceeds : Bool)
    (pool : Option (List Char)) (ip : Line) : WorkflowOutcome :=
  match decision with
  | .approved =>
    if apiCreateSucceeds then
      if dmSucceeds then ⟨.created, pool, some .directMessage, false⟩
      else if followupSucceeds then ⟨.created, pool, some .channelFallback, false⟩
      else ⟨.created, pool, none, true⟩
    else ⟨.creationFailed, return_ip_to_pool pool ip, some .guardedEmbed, false⟩
  | .denied =>
    if dmSucceeds then
      ⟨.deniedReq, return_ip_to_pool pool ip, some .directMessage, false⟩
    else if followupSucceeds then
      ⟨.deniedReq, return_ip_to_pool pool ip, some .channelFallback, false⟩
    else ⟨.deniedReq, pool, none, true⟩
  | .timedOut =>
    if dmSucceeds then
      ⟨.timedOutReq, return_ip_to_pool pool ip, some .directMessage, false⟩
    else if followupSucceeds then
      ⟨.timedOutReq, return_ip_to_pool pool ip, some .channelFallback, false⟩
    else ⟨.timedOutReq, pool, none, true⟩

/-! ## Server creation payload units
Source: the `server_creation_payload` dictionaries, src/main.py lines
1281-1296 and src/bot.py lines 1650-1674. -/

/-- Resource specification of a reward plan, in the units of the plan
configuration (`cpu_cores`, `ram_gb`, `disk_gb`). -/
structure PlanSpec where
  cpu_cores : Int
  ram_gb : Int
  disk_gb : Int
deriving DecidableEq

/-- Memory field of src/main.py's payload (line 1287):
`plan_data['ram_gb'] * 1024`. -/
def main_payload_memory (p : PlanSpec) : Int := p.ram_gb * 1024

/-- Disk field of src/main.py's payload (line 1288):
`plan_data['disk_gb'] * 1024`. -/
def main_payload_disk (p : PlanSpec) : Int := p.disk_gb * 1024

/-- Memory field of src/bot.py's payload (line 1658):
`plan_data['ram_gb'] * 1024 * 1024 * 1024`. -/
def bot_payload_memory (p : PlanSpec) : Int := p.ram_gb * 1024 * 1024 * 1024

/-- Disk field of src/bot.py's payload (line 1659):
`plan_data['disk_gb'] * 1024 * 1024 * 1024`. -/
def bot_payload_disk (p : PlanSpec) : Int := p.disk_gb * 1024 * 1024 * 1024

/-! ## Invite attribution model
Source: `on_member_join` (src/main.py lines 1635-1670; src/bot.py lines
3404-3446) and the invite counter store (src/main.py lines 551-574). -/

/-- Association-list lookup with default, modelling Python `dict.get`. -/
def assocGetD {α : Type} : List (String × α) → String → α → α
  | [], _, d => d
  | (k', v) :: rest, k, d => if k' = k then v else assocGetD rest k d

/-- Association-list key-membership, modelling Python `in` on a dict. -/
def assocContains {α : Type} : List (String × α) → String → Bool
  | [], _ => false
  | (k', _) :: rest, k => k' = k || assocContains rest k

/-- Association-list update, modelling Python `d[k] = v`. -/
def assocSet {α : Type} : List (String × α) → String → α → List (String × α)
  | [], k, v => [(k, v)]
  | (k', v') :: rest, k, v =>
    if k' = k then (k, v) :: rest else (k', v') :: assocSet rest k v

/-- One invite object as seen by the attribution loop; any of the three
fields may be missing (`None` in Python). -/
structure InviteObj where
  code : Option String
  uses : Option Int
  inviter : Option Nat
deriving DecidableEq

/-- The cached per-guild snapshot: invite code to use count. -/
abbrev InviteCache := List (String × Int)

/-- The loop's change test (src/main.py lines 1656-1657):
`code not in cached or uses > cached.get(code, -1)`. -/
def inviteChanged (cache : InviteCache) (code : String) (uses : Int) : Bool :=
  !assocContains cache code || uses > assocGetD cache code (-1)

/-- An invite counts as a candidate inviter when its three fields are present
and the change test fires. -/
def isCandidate (cache : InviteCache) (inv : InviteObj) : Bool :=
  match inv.code, inv.uses, inv.inviter with
  | some code, some uses, some _ => inviteChanged cache code uses
  | _, _, _ => false

/-- The attribution loop of `on_member_join` (src/main.py lines 1652-1664):
invites with a missing field are skipped; the first candidate becomes the
found inviter; a second candidate resets the inviter to `None` and breaks. -/
def findInviterLoop : List InviteObj → InviteCache → Option Nat → Option Nat
  | [], _, found => found
  | inv :: rest, cache, found =>
    match inv.code, inv.uses, inv.inviter with
    | some code, some uses, some inviter =>
      if inviteChanged cache code uses then
        match found with
        | none => findInviterLoop rest cache (some inviter)
        | some _ => none
      else findInviterLoop rest cache found
    | _, _, _ => findInviterLoop rest cache found

/-- The invite counter table: guild-id string to (user-id string to count). -/
abbrev InviteCounts := List (String × List (String × Int))

/-- Function `increment_invite_count` (src/main.py lines 555-563): create the guild
entry if missing, then set the user's count to its current value plus one. -/
def increment_invite_count (counts : InviteCounts) (guildId userId : Nat) : InviteCounts :=
  let gid := toString guildId
  let uid := toString userId
  let g := assocGetD counts gid []
  let c := assocGetD g uid 0
  assocSet counts gid (assocSet g uid (c + 1))

/-- The counter effect of one `on_member_join` event (src/main.py lines
1649-1668): run the attribution loop; increment only when a unique inviter
was found and is not the joining member. -/
def on_member_join_counts (invites : List InviteObj) (cache : InviteCache)
    (guildId memberId : Nat) (counts : InviteCounts) : InviteCounts :=
  match findInviterLoop invites cache none with
  | some inviterId =>
    if inviterId ≠ memberId then increment_invite_count counts guildId inviterId
    else counts
  | none => counts

/-! ## Compliant password generator
Source: `generate_compliant_password` (src/main.py lines 257-279, identical in
src/bot.py lines 252-274).  `random.choice` is modelled by an index stream
`picks` reduced modulo the character-set size, and `random.shuffle` by a
Fisher-Yates pass driven by an arbitrary index list, which always produces a
permutation of its input. -/

/-- Character set `lower_chars`. -/
def lower_chars : List Char := "abcdefghijklmnopqrstuvwxyz".data

/-- Character set `upper_chars`. -/
def upper_chars : List Char := "ABCDEFGHIJKLMNOPQRSTUVWXYZ".data

/-- Character set `digit_chars`. -/
def digit_chars : List Char := "0123456789".data

/-- Character set `guaranteed_special_char_set`. -/
def guaranteed_special_char_set : List Char := "!@#$%^&*_+-=?".data

/-- Character set `all_fill_chars`. -/
def all_fill_chars : List Char :=
  lower_chars ++ upper_chars ++ digit_chars ++ guaranteed_special_char_set

/-- Model of `random.choice(s)`: pick the element at an arbitrary index,
reduced modulo the length. -/
def pyChoice (s : List Char) (i : Nat) : Char := s.getD (i % s.length) 'a'

/-- Model of `random.shuffle`: repeatedly extract the element at an arbitrary
index (reduced modulo the remaining length).  Whatever the index list, the
result is a permutation of the input. -/
def applyShuffle : List Nat → List Char → List Char
  | [], l => l
  | _ :: _, [] => []
  | i :: is, a :: l =>
    let j := i % (a :: l).length
    (a :: l).getD j 'a' :: applyShuffle is ((a :: l).eraseIdx j)

/-- Function `generate_compliant_password` (src/main.py lines 257-279): clamp the
length (anything outside 8..50 becomes 16; the `< 4` clamp is then
unreachable), pick one char from each required class, fill up to the length
from `all_fill_chars`, truncate if over, and shuffle. -/
def generate_compliant_password (length : Int) (picks : Nat → Nat)
    (shuffleIdx : List Nat) : List Char :=
  let len1 : Int := if ¬ (8 ≤ length ∧ length ≤ 50) then 16 else length
  let len2 : Int := if len1 < 4 then 8 else len1
  let password_components : List Char :=
    [pyChoice lower_chars (picks 0), pyChoice upper_chars (picks 1),
     pyChoice digit_chars (picks 2), pyChoice guaranteed_special_char_set (picks 3)]
  let remaining_length : Int := len2 - 4
  let comps : List Char :=
    if 0 < remaining_length then
      password_components ++
        (List.range remaining_length.toNat).map
          (fun k => pyChoice all_fill_chars (picks (4 + k)))
    else if remaining_length < 0 then password_components.take len2.toNat
    else password_components
  applyShuffle shuffleIdx comps

/-! ## Helper lemmas about lines and stripping -/

theorem splitLines_ne_nil (l : List Char) (h : l ≠ []) : splitLinesKeepEnds l ≠ [] := by
  match l with
  | [] => exact absurd rfl h
  | c :: cs =>
    unfold splitLinesKeepEnds
    by_cases hc : c = '\n'
    · simp [hc]
    · simp only [if_neg hc]
      cases splitLinesKeepEnds cs <;> simp

theorem splitLines_cons_newline (cs : List Char) :
    splitLinesKeepEnds ('\n' :: cs) = ['\n'] :: splitLinesKeepEnds cs := by
  conv_lhs => rw [splitLinesKeepEnds]
  simp

theorem splitLines_cons_ne_nil (c : Char) (cs : List Char) (hc : c ≠ '\n')
    (hs : splitLinesKeepEnds cs = []) : splitLinesKeepEnds (c :: cs) = [[c]] := by
  conv_lhs => rw [splitLinesKeepEnds]
  simp [hc, hs]

theorem splitLines_cons_ne_cons (c : Char) (cs : List Char) (hc : c ≠ '\n')
    (h : List Char) (t : List (List Char)) (hs : splitLinesKeepEnds cs = h :: t) :
    splitLinesKeepEnds (c :: cs) = (c :: h) :: t := by
  conv_lhs => rw [splitLinesKeepEnds]
  simp [hc, hs]

theorem noNL_cons (c : Char) (l : List Char) (hc : c ≠ '\n') (hl : '\n' ∉ l) :
    '\n' ∉ c :: l := by
  intro hm
  rcases List.mem_cons.mp hm with e | m
  · exact hc e.symm
  · exact hl m

theorem splitLines_noNL_append (cs rest : List Char) (h : '\n' ∉ cs) :
    splitLinesKeepEnds (cs ++ '\n' :: rest) = (cs ++ ['\n']) :: splitLinesKeepEnds rest := by
  induction cs with
  | nil => simp [splitLines_cons_newline]
  | cons c cs ih =>
    have hc : c ≠ '\n' := fun e => h (e ▸ List.mem_cons_self c cs)
    have h' : '\n' ∉ cs := fun m => h (List.mem_cons_of_mem _ m)
    rw [List.cons_append]
    exact splitLines_cons_ne_cons c _ hc _ _ (ih h')

theorem joinLines_splitLines (l : List Char) : joinLines (splitLinesKeepEnds l) = l := by
  induction l with
  | nil => rfl
  | cons c cs ih =>
    by_cases hc : c = '\n'
    · subst hc
      rw [splitLines_cons_newline]
      simpa [joinLines] using ih
    · cases hsplit : splitLinesKeepEnds cs with
      | nil =>
        have hcs : cs = [] := by
          by_contra hne
          exact splitLines_ne_nil cs hne hsplit
        subst hcs
        rw [splitLines_cons_ne_nil c [] hc rfl]
        simp [joinLines]
      | cons h t =>
        rw [splitLines_cons_ne_cons c cs hc h t hsplit]
        rw [hsplit] at ih
        simp only [joinLines, List.flatten_cons, List.cons_append] at ih ⊢
        rw [ih]

theorem validLines_splitLines (l : List Char) : ValidLines (splitLinesKeepEnds l) := by
  induction l with
  | nil => exact ValidLines.nil
  | cons c cs ih =>
    by_cases hc : c = '\n'
    · subst hc
      rw [splitLines_cons_newline]
      have h := ValidLines.cons [] (by simp) _ ih
      simpa using h
    · cases hsplit : splitLinesKeepEnds cs with
      | nil =>
        rw [splitLines_cons_ne_nil c cs hc hsplit]
        exact ValidLines.single [c] (noNL_cons c [] hc (by simp)) (by simp)
      | cons h t =>
        rw [splitLines_cons_ne_cons c cs hc h t hsplit]
        rw [hsplit] at ih
        cases ih with
        | single u hnl hne =>
          exact ValidLines.single (c :: h) (noNL_cons c h hc hnl) (by simp)
        | cons core hnl rest hr =>
          exact ValidLines.cons (c :: core) (noNL_cons c core hc hnl) t hr

theorem validLines_of_cons (a : List Char) (ls : List (List Char))
    (h : ValidLines (a :: ls)) : ValidLines ls := by
  cases h with
  | single core hnl hne => exact ValidLines.nil
  | cons core hnl rest hr => exact hr

theorem validLines_append_right (xs ys : List (List Char))
    (h : ValidLines (xs ++ ys)) : ValidLines ys := by
  induction xs with
  | nil => exact h
  | cons a xs ih => exact ih (validLines_of_cons _ _ h)

theorem splitLines_noNL (core : List Char) (hnl : '\n' ∉ core) (hne : core ≠ []) :
    splitLinesKeepEnds core = [core] := by
  induction core with
  | nil => exact absurd rfl hne
  | cons c cs ih =>
    have hc : c ≠ '\n' := fun e => hnl (e ▸ List.mem_cons_self c cs)
    have h' : '\n' ∉ cs := fun m => hnl (List.mem_cons_of_mem _ m)
    by_cases hcs : cs = []
    · subst hcs
      exact splitLines_cons_ne_nil c [] hc rfl
    · exact splitLines_cons_ne_cons c cs hc cs [] (ih h' hcs)

theorem splitLines_joinLines (ls : List (List Char)) (h : ValidLines ls) :
    splitLinesKeepEnds (joinLines ls) = ls := by
  induction h with
  | nil => rfl
  | single core hnl hne =>
    have : joinLines [core] = core := by simp [joinLines]
    rw [this]
    exact splitLines_noNL core hnl hne
  | cons core hnl rest hr ih =>
    have : joinLines ((core ++ ['\n']) :: rest) = core ++ '\n' :: joinLines rest := by
      simp [joinLines]
    rw [this, splitLines_noNL_append core _ hnl, ih]

theorem dropWhile_append_of_ne_nil (p : Char → Bool) (xs ys : List Char)
    (h : xs.dropWhile p ≠ []) : (xs ++ ys).dropWhile p = xs.dropWhile p ++ ys := by
  induction xs with
  | nil => simp at h
  | cons a xs ih =>
    by_cases ha : p a
    · rw [List.dropWhile_cons_of_pos ha] at h
      rw [List.cons_append, List.dropWhile_cons_of_pos ha, List.dropWhile_cons_of_pos ha]
      exact ih h
    · have ha' : p a = false := by simpa using ha
      rw [List.cons_append, List.dropWhile_cons_of_neg (by simp [ha']),
        List.dropWhile_cons_of_neg (by simp [ha'])]
      rfl

theorem dropWhile_append_of_nil (p : Char → Bool) (xs ys : List Char)
    (h : xs.dropWhile p = []) : (xs ++ ys).dropWhile p = ys.dropWhile p := by
  induction xs with
  | nil => simp
  | cons a xs ih =>
    by_cases ha : p a
    · rw [List.dropWhile_cons_of_pos ha] at h
      rw [List.cons_append, List.dropWhile_cons_of_pos ha]
      exact ih h
    · rw [List.dropWhile_cons_of_neg ha] at h
      simp at h

theorem dropWhile_idem (p : Char → Bool) (l : List Char) :
    (l.dropWhile p).dropWhile p = l.dropWhile p := by
  induction l with
  | nil => rfl
  | cons a l ih =>
    by_cases ha : p a
    · rw [List.dropWhile_cons_of_pos ha]
      exact ih
    · rw [List.dropWhile_cons_of_neg ha, List.dropWhile_cons_of_neg ha]

theorem dropWhile_head_false (p : Char → Bool) :
    ∀ (l : List Char) (c : Char) (t : List Char), l.dropWhile p = c :: t → p c = false := by
  intro l
  induction l with
  | nil => intro c t h; simp at h
  | cons a l ih =>
    intro c t h
    by_cases ha : p a
    · rw [List.dropWhile_cons_of_pos ha] at h
      exact ih c t h
    · rw [List.dropWhile_cons_of_neg ha] at h
      cases h
      simpa using ha

theorem pyStrip_append_newline (a : List Char) : pyStrip (a ++ ['\n']) = pyStrip a := by
  unfold pyStrip
  by_cases h : a.dropWhile isPySpace = []
  · rw [dropWhile_append_of_nil _ _ _ h, h]
    rfl
  · rw [dropWhile_append_of_ne_nil _ _ _ h, List.reverse_append]
    have hsp : isPySpace '\n' = true := by decide
    simp only [List.reverse_cons, List.reverse_nil, List.nil_append, List.singleton_append,
      List.dropWhile_cons_of_pos hsp]

theorem pyStrip_idem (l : List Char) : pyStrip (pyStrip l) = pyStrip l := by
  cases hr : pyStrip l with
  | nil => rfl
  | cons c t =>
    have hu : l.dropWhile isPySpace =
        (c :: t) ++ ((l.dropWhile isPySpace).reverse.takeWhile isPySpace).reverse := by
      conv_lhs => rw [← List.reverse_reverse (l.dropWhile isPySpace)]
      conv_lhs =>
        rw [← List.takeWhile_append_dropWhile (p := isPySpace) (l.dropWhile isPySpace).reverse]
      rw [List.reverse_append]
      congr 1
    have hc : isPySpace c = false := by
      apply dropWhile_head_false isPySpace l c
        (t ++ ((l.dropWhile isPySpace).reverse.takeWhile isPySpace).reverse)
      simpa using hu
    have hv : (c :: t).reverse.dropWhile isPySpace = (c :: t).reverse := by
      have h2 : (c :: t).reverse = (l.dropWhile isPySpace).reverse.dropWhile isPySpace := by
        rw [← hr]
        simp [pyStrip]
      rw [h2]
      exact dropWhile_idem _ _
    show pyStrip (c :: t) = c :: t
    unfold pyStrip
    rw [List.dropWhile_cons_of_neg (by simp [hc]), hv, List.reverse_reverse]

theorem mem_pyStrip_sub (l : List Char) (c : Char) (h : c ∈ pyStrip l) : c ∈ l := by
  unfold pyStrip at h
  rw [List.mem_reverse] at h
  have h2 := (List.dropWhile_sublist _).subset h
  rw [List.mem_reverse] at h2
  exact (List.dropWhile_sublist _).subset h2

theorem isEligibleLine_append_newline (a : List Char) :
    isEligibleLine (a ++ ['\n']) = isEligibleLine a := by
  unfold isEligibleLine
  rw [pyStrip_append_newline]

theorem not_eligible_blank : isEligibleLine ['\n'] = false := by decide

theorem closeLines_ne_nil (ls : List (List Char)) : closeLines ls ≠ [] := by
  match ls with
  | [] => simp [closeLines]
  | [a] =>
    unfold closeLines
    split <;> simp
  | a :: b :: rest => simp [closeLines]

theorem validLines_head_ne_nil (h : List Char) (t : List (List Char))
    (hv : ValidLines (h :: t)) : h ≠ [] := by
  cases hv with
  | single u hnl hne => exact hne
  | cons core hnl rest hr => simp

theorem closeLines_cons_head (c : Char) (h : List Char) (t : List (List Char))
    (hne : h ≠ []) (h2 : List Char) (t2 : List (List Char))
    (hcl : closeLines (h :: t) = h2 :: t2) :
    closeLines ((c :: h) :: t) = (c :: h2) :: t2 := by
  cases t with
  | nil =>
    rcases h with _ | ⟨x, xs⟩
    · exact absurd rfl hne
    · unfold closeLines at hcl ⊢
      rw [List.getLast?_cons_cons]
      by_cases hl : (x :: xs).getLast? = some '\n'
      · rw [if_pos hl] at hcl
        rw [if_pos hl]
        injection hcl with e1 e2
        rw [← e1, ← e2]
      · rw [if_neg hl] at hcl
        rw [if_neg hl]
        injection hcl with e1 e2
        rw [← e1, ← e2]
        rfl
  | cons t1 t1s =>
    unfold closeLines at hcl ⊢
    injection hcl with e1 e2
    rw [e1, e2]

theorem splitLines_append_single_newline (x : List Char) :
    splitLinesKeepEnds (x ++ ['\n']) = closeLines (splitLinesKeepEnds x) := by
  induction x with
  | nil => rfl
  | cons c cs ih =>
    by_cases hc : c = '\n'
    · subst hc
      rw [List.cons_append, splitLines_cons_newline, splitLines_cons_newline, ih]
      cases hsplit : splitLinesKeepEnds cs with
      | nil => rfl
      | cons h t => rfl
    · cases hsplit : splitLinesKeepEnds cs with
      | nil =>
        have hcs : cs = [] := by
          by_contra hne
          exact splitLines_ne_nil cs hne hsplit
        subst hcs
        rw [splitLines_cons_ne_nil c [] hc rfl]
        have hl : splitLinesKeepEnds ([c] ++ '\n' :: []) =
            ([c] ++ ['\n']) :: splitLinesKeepEnds [] :=
          splitLines_noNL_append [c] [] (noNL_cons c [] hc (by simp))
        rw [show (c :: ([] : List Char)) ++ ['\n'] = [c] ++ '\n' :: [] from rfl, hl]
        unfold closeLines
        rw [if_neg (by simp [hc])]
        rfl
      | cons h t =>
        have hval : ValidLines (h :: t) := hsplit ▸ validLines_splitLines cs
        have hne : h ≠ [] := validLines_head_ne_nil h t hval
        rw [hsplit] at ih
        obtain ⟨h2, t2, hcl⟩ := List.exists_cons_of_ne_nil (closeLines_ne_nil (h :: t))
        rw [show (c :: cs) ++ ['\n'] = c :: (cs ++ ['\n']) from rfl,
          splitLines_cons_ne_cons c (cs ++ ['\n']) hc h2 t2 (ih.trans hcl),
          splitLines_cons_ne_cons c cs hc h t hsplit,
          closeLines_cons_head c h t hne h2 t2 hcl]

theorem eligibleEntriesOfLines_cons (a : Line) (ls : List Line) :
    eligibleEntriesOfLines (a :: ls) =
      if isEligibleLine a then pyStrip a :: eligibleEntriesOfLines ls
      else eligibleEntriesOfLines ls := by
  unfold eligibleEntriesOfLines
  by_cases he : isEligibleLine a
  · simp [List.filter_cons, he]
  · simp [List.filter_cons, he]

theorem eligibleEntriesOfLines_append (xs ys : List Line) :
    eligibleEntriesOfLines (xs ++ ys) =
      eligibleEntriesOfLines xs ++ eligibleEntriesOfLines ys := by
  unfold eligibleEntriesOfLines
  rw [List.filter_append, List.map_append]

theorem eligibleEntriesOfLines_closeLines (ls : List Line) :
    eligibleEntriesOfLines (closeLines ls) = eligibleEntriesOfLines ls := by
  induction ls with
  | nil =>
    show eligibleEntriesOfLines [['\n']] = eligibleEntriesOfLines []
    rw [eligibleEntriesOfLines_cons, if_neg (by simp [not_eligible_blank])]
  | cons a ls ih =>
    cases ls with
    | nil =>
      unfold closeLines
      by_cases hl : a.getLast? = some '\n'
      · have hblank : eligibleEntriesOfLines [['\n']] = eligibleEntriesOfLines [] := by
          rw [eligibleEntriesOfLines_cons ['\n'] [], if_neg (by simp [not_eligible_blank])]
        rw [if_pos hl, eligibleEntriesOfLines_cons a [['\n']], hblank,
          eligibleEntriesOfLines_cons a []]
      · rw [if_neg hl, eligibleEntriesOfLines_cons (a ++ ['\n']) [],
          isEligibleLine_append_newline, pyStrip_append_newline,
          eligibleEntriesOfLines_cons a []]
    | cons b ls2 =>
      unfold closeLines
      rw [eligibleEntriesOfLines_cons, eligibleEntriesOfLines_cons, ih]

theorem ipLoop_cons_none (a : Line) (ls keep : List Line) :
    ipLoop (a :: ls) none keep =
      if isEligibleLine a then ipLoop ls (some (pyStrip a)) keep
      else ipLoop ls none keep := rfl

theorem ipLoop_found (ls : List Line) (ip : Line) (keep : List Line) :
    ipLoop ls (some ip) keep = (some ip, keep ++ ls) := by
  induction ls generalizing keep with
  | nil => simp [ipLoop]
  | cons a ls ih =>
    show ipLoop ls (some ip) (keep ++ [a]) = (some ip, keep ++ a :: ls)
    rw [ih]
    simp

theorem ipLoop_no_eligible (ls keep : List Line)
    (h : ∀ l ∈ ls, isEligibleLine l = false) :
    ipLoop ls none keep = (none, keep) := by
  induction ls with
  | nil => rfl
  | cons a ls ih =>
    have ha : isEligibleLine a = false := h a (List.mem_cons_self _ _)
    rw [ipLoop_cons_none, if_neg (by simp [ha])]
    exact ih (fun l hl => h l (List.mem_cons_of_mem _ hl))

theorem ipLoop_first_eligible (pre : List Line) (line : Line) (post : List Line)
    (hpre : ∀ l ∈ pre, isEligibleLine l = false) (hline : isEligibleLine line = true) :
    ipLoop (pre ++ line :: post) none [] = (some (pyStrip line), post) := by
  induction pre with
  | nil =>
    rw [List.nil_append, ipLoop_cons_none, if_pos hline, ipLoop_found]
    simp
  | cons a pre ih =>
    have ha := hpre a (List.mem_cons_self _ _)
    rw [List.cons_append, ipLoop_cons_none, if_neg (by simp [ha])]
    exact ih (fun l hl => hpre l (List.mem_cons_of_mem _ hl))

theorem ipLoop_inversion (ls : List Line) (ip : Line) (keep : List Line)
    (h : ipLoop ls none [] = (some ip, keep)) :
    ∃ pre line, ls = pre ++ line :: keep ∧ (∀ l ∈ pre, isEligibleLine l = false) ∧
      isEligibleLine line = true ∧ ip = pyStrip line := by
  induction ls with
  | nil => simp [ipLoop] at h
  | cons a ls ih =>
    rw [ipLoop_cons_none] at h
    by_cases ha : isEligibleLine a
    · rw [if_pos ha, ipLoop_found] at h
      rw [Prod.mk.injEq] at h
      obtain ⟨h1, h2⟩ := h
      refine ⟨[], a, ?_, by simp, ha, ?_⟩
      · simp [← h2]
      · exact (Option.some.inj h1).symm
    · rw [if_neg ha] at h
      obtain ⟨pre, line, hsplit, hpre, hline, hip⟩ := ih h
      refine ⟨a :: pre, line, by simp [hsplit], ?_, hline, hip⟩
      intro l hl
      rcases List.mem_cons.mp hl with e | m
      · subst e
        simpa using ha
      · exact hpre l m

theorem splitLines_append_mid (x y : List Char) :
    splitLinesKeepEnds (x ++ '\n' :: y) =
      splitLinesKeepEnds (x ++ ['\n']) ++ splitLinesKeepEnds y := by
  induction x with
  | nil =>
    rw [List.nil_append, List.nil_append, splitLines_cons_newline, splitLines_cons_newline]
    rfl
  | cons c cs ih =>
    by_cases hc : c = '\n'
    · subst hc
      rw [List.cons_append, List.cons_append, splitLines_cons_newline,
        splitLines_cons_newline, ih, List.cons_append]
    · have hne2 : splitLinesKeepEnds (cs ++ ['\n']) ≠ [] := splitLines_ne_nil _ (by simp)
      obtain ⟨h1, t1, he⟩ := List.exists_cons_of_ne_nil hne2
      rw [List.cons_append,
        splitLines_cons_ne_cons c (cs ++ '\n' :: y) hc h1 (t1 ++ splitLinesKeepEnds y)
          (by rw [ih, he, List.cons_append]),
        List.cons_append, splitLines_cons_ne_cons c (cs ++ ['\n']) hc h1 t1 he,
        List.cons_append]

theorem validLines_mem_strip_noNL (ls : List Line) (h : ValidLines ls) (line : Line)
    (hm : line ∈ ls) : '\n' ∉ pyStrip line := by
  induction h with
  | nil => simp at hm
  | single core hnl hne =>
    have he : line = core := by simpa using hm
    subst he
    intro hc
    exact hnl (mem_pyStrip_sub _ _ hc)
  | cons core hnl rest hr ih =>
    rcases List.mem_cons.mp hm with e | m
    · subst e
      rw [pyStrip_append_newline]
      intro hc
      exact hnl (mem_pyStrip_sub _ _ hc)
    · exact ih m

theorem dispense_unfold (content : List Char) :
    get_and_remove_first_ip (some content) =
      (match ipLoop (splitLinesKeepEnds content) none [] with
        | (some ip, keep) => ⟨some ip, some (joinLines keep)⟩
        | (none, _) => ⟨none, some content⟩) := rfl

theorem dispense_eq_some (content : List Char) (ip : Line) (keep : List Line)
    (hloop : ipLoop (splitLinesKeepEnds content) none [] = (some ip, keep)) :
    get_and_remove_first_ip (some content) = ⟨some ip, some (joinLines keep)⟩ := by
  rw [dispense_unfold, hloop]

theorem dispense_eq_none (content : List Char) (keep : List Line)
    (hloop : ipLoop (splitLinesKeepEnds content) none [] = (none, keep)) :
    get_and_remove_first_ip (some content) = ⟨none, some content⟩ := by
  rw [dispense_unfold, hloop]

theorem dispense_some_inversion (content : List Char) (ip : Line) (kept : List Char)
    (h : get_and_remove_first_ip (some content) = ⟨some ip, some kept⟩) :
    ∃ pre line post,
      splitLinesKeepEnds content = pre ++ line :: post ∧
      (∀ l ∈ pre, isEligibleLine l = false) ∧
      isEligibleLine line = true ∧ ip = pyStrip line ∧ kept = joinLines post := by
  rcases hloop : ipLoop (splitLinesKeepEnds content) none [] with ⟨found, keep⟩
  cases found with
  | none =>
    rw [dispense_eq_none content keep hloop] at h
    simp at h
  | some ip2 =>
    rw [dispense_eq_some content ip2 keep hloop] at h
    rw [DispenseResult.mk.injEq, Option.some.injEq, Option.some.injEq] at h
    obtain ⟨h1, h2⟩ := h
    obtain ⟨pre, line, hsplit, hpre, hline, hip⟩ := ipLoop_inversion _ _ _ hloop
    exact ⟨pre, line, keep, hsplit, hpre, hline, h1 ▸ hip, h2.symm⟩

theorem dispense_eligibleEntries (content : List Char) (ip : Line) (kept : List Char)
    (h : get_and_remove_first_ip (some content) = ⟨some ip, some kept⟩) :
    eligibleEntries content = ip :: eligibleEntries kept ∧
    pyStrip ip = ip ∧ '\n' ∉ ip ∧ isEligibleLine ip = true := by
  obtain ⟨pre, line, post, hsplit, hpre, hline, hip, hkept⟩ := dispense_some_inversion _ _ _ h
  have hval : ValidLines (splitLinesKeepEnds content) := validLines_splitLines content
  rw [hsplit] at hval
  have hvpost : ValidLines post := by
    apply validLines_append_right (pre ++ [line]) post
    simpa using hval
  have hkeptlines : splitLinesKeepEnds kept = post := by
    rw [hkept]
    exact splitLines_joinLines post hvpost
  have hstr : pyStrip ip = ip := by rw [hip, pyStrip_idem]
  refine ⟨?_, hstr, ?_, ?_⟩
  · unfold eligibleEntries
    rw [hsplit, hkeptlines, eligibleEntriesOfLines_append, eligibleEntriesOfLines_cons,
      if_pos hline]
    have hpre0 : eligibleEntriesOfLines pre = [] := by
      unfold eligibleEntriesOfLines
      rw [List.filter_eq_nil_iff.mpr (fun a ha => by simp [hpre a ha])]
      rfl
    rw [hpre0, hip]
    rfl
  · rw [hip]
    exact validLines_mem_strip_noNL _ hval line (by simp)
  · unfold isEligibleLine at hline ⊢
    rw [hip, pyStrip_idem]
    exact hline

theorem eligibleEntries_return_append (content ip : List Char) (hnl : '\n' ∉ ip)
    (hstrip : pyStrip ip = ip) (helig : isEligibleLine ip = true) :
    eligibleEntries (content ++ '\n' :: (ip ++ ['\n'])) = eligibleEntries content ++ [ip] := by
  unfold eligibleEntries
  rw [splitLines_append_mid, eligibleEntriesOfLines_append,
    splitLines_append_single_newline, eligibleEntriesOfLines_closeLines]
  congr 1
  have hl : splitLinesKeepEnds (ip ++ ['\n']) = [ip ++ ['\n']] := by
    have h0 := splitLines_noNL_append ip [] hnl
    simpa using h0
  rw [hl, eligibleEntriesOfLines_cons, isEligibleLine_append_newline, if_pos helig,
    pyStrip_append_newline, hstrip]
  rfl

/-! ## Claim theorems: IP pool (C3, C4, C5) -/

/-- C3 counterexample: on the pool file consisting of a comment header line
followed by the IPs 1.2.3.4 and 5.6.7.8, dispense returns 1.2.3.4 but the
rewritten file is just the line 5.6.7.8 — the comment line before the
dispensed entry is dropped, not preserved as the claim states. -/
theorem C3_counterexample :
    get_and_remove_first_ip (some "# pool header\n1.2.3.4\n5.6.7.8\n".data) =
      ⟨some "1.2.3.4".data, some "5.6.7.8\n".data⟩ ∧
    "5.6.7.8\n".data ≠ "# pool header\n5.6.7.8\n".data := by
  constructor
  · decide
  · decide

/-- C3 (amended): for every pool file whose lines split as non-eligible lines,
then a first eligible line, then a suffix, dispense returns the stripped first
eligible line and rewrites the file to exactly the suffix lines, verbatim; the
comment/blank lines before the dispensed entry are discarded.  In particular a
comment-free file [A, B, C] yields A and leaves [B, C]. -/
theorem C3_dispense_first_eligible (content : List Char) (pre post : List Line) (line : Line)
    (hsplit : splitLinesKeepEnds content = pre ++ line :: post)
    (hpre : ∀ l ∈ pre, isEligibleLine l = false)
    (hline : isEligibleLine line = true) :
    get_and_remove_first_ip (some content) =
      ⟨some (pyStrip line), some (joinLines post)⟩ := by
  apply dispense_eq_some
  rw [hsplit]
  exact ipLoop_first_eligible pre line post hpre hline

/-- C3 witness: the amended theorem applied to the comment-free pool
[1.1.1.1, 2.2.2.2, 3.3.3.3]. -/
theorem C3_dispense_first_eligible_witness :
    splitLinesKeepEnds "1.1.1.1\n2.2.2.2\n3.3.3.3\n".data =
      [] ++ "1.1.1.1\n".data :: ["2.2.2.2\n".data, "3.3.3.3\n".data] ∧
    isEligibleLine "1.1.1.1\n".data = true ∧
    get_and_remove_first_ip (some "1.1.1.1\n2.2.2.2\n3.3.3.3\n".data) =
      ⟨some (pyStrip "1.1.1.1\n".data),
       some (joinLines ["2.2.2.2\n".data, "3.3.3.3\n".data])⟩ :=
  ⟨by decide, by decide,
    C3_dispense_first_eligible "1.1.1.1\n2.2.2.2\n3.3.3.3\n".data []
      ["2.2.2.2\n".data, "3.3.3.3\n".data] "1.1.1.1\n".data
      (by decide) (by decide) (by decide)⟩

/-- C4: dispense on a pool file with no eligible line (empty, or only
comment/blank lines) returns no IP and leaves the contents unchanged; and on a
missing pool file it creates the file containing only the comment header and
returns no IP. -/
theorem C4_empty_pool_behavior (content : List Char)
    (h : ∀ l ∈ splitLinesKeepEnds content, isEligibleLine l = false) :
    get_and_remove_first_ip (some content) = ⟨none, some content⟩ ∧
    get_and_remove_first_ip none = ⟨none, some ipFileHeader⟩ := by
  refine ⟨?_, rfl⟩
  exact dispense_eq_none content [] (ipLoop_no_eligible _ [] h)

/-- C4 witness: the theorem applied to the comment-and-blank-only pool file. -/
theorem C4_empty_pool_behavior_witness :
    (∀ l ∈ splitLinesKeepEnds "# ips\n\n".data, isEligibleLine l = false) ∧
    get_and_remove_first_ip (some "# ips\n\n".data) = ⟨none, some "# ips\n\n".data⟩ ∧
    get_and_remove_first_ip none = ⟨none, some ipFileHeader⟩ :=
  ⟨by decide, C4_empty_pool_behavior "# ips\n\n".data (by decide)⟩

/-- C5: for a pool file whose eligible entries are [A, B], dispensing returns
A leaving [B], and returning A appends it at the end: the resulting pool's
eligible entries are [B, A], not [A, B]. -/
theorem C5_return_is_append (A B : Line)
    (hA1 : pyStrip A = A) (hA2 : A ≠ []) (hA3 : startsWithHash A = false) (hA4 : '\n' ∉ A)
    (hB1 : pyStrip B = B) (hB2 : B ≠ []) (hB3 : startsWithHash B = false) (hB4 : '\n' ∉ B)
    (hAB : A ≠ B) :
    eligibleEntries (A ++ '\n' :: (B ++ ['\n'])) = [A, B] ∧
    get_and_remove_first_ip (some (A ++ '\n' :: (B ++ ['\n']))) =
      ⟨some A, some (B ++ ['\n'])⟩ ∧
    return_ip_to_pool (some (B ++ ['\n'])) A =
      some ((B ++ ['\n']) ++ '\n' :: (A ++ ['\n'])) ∧
    eligibleEntries ((B ++ ['\n']) ++ '\n' :: (A ++ ['\n'])) = [B, A] ∧
    eligibleEntries ((B ++ ['\n']) ++ '\n' :: (A ++ ['\n'])) ≠ [A, B] := by
  have hAemp : A.isEmpty = false := by
    cases A with
    | nil => exact absurd rfl hA2
    | cons a t => rfl
  have hBemp : B.isEmpty = false := by
    cases B with
    | nil => exact absurd rfl hB2
    | cons b t => rfl
  have heligA : isEligibleLine A = true := by
    unfold isEligibleLine
    rw [hA1, hA3, hAemp]
    rfl
  have heligB : isEligibleLine B = true := by
    unfold isEligibleLine
    rw [hB1, hB3, hBemp]
    rfl
  have hsplitB : splitLinesKeepEnds (B ++ ['\n']) = [B ++ ['\n']] := by
    have h0 := splitLines_noNL_append B [] hB4
    simpa using h0
  have hsplitC : splitLinesKeepEnds (A ++ '\n' :: (B ++ ['\n'])) =
      (A ++ ['\n']) :: [B ++ ['\n']] := by
    rw [splitLines_noNL_append A (B ++ ['\n']) hA4, hsplitB]
  have heligEB : eligibleEntries (B ++ ['\n']) = [B] := by
    unfold eligibleEntries
    rw [hsplitB, eligibleEntriesOfLines_cons, isEligibleLine_append_newline, if_pos heligB,
      pyStrip_append_newline, hB1]
    rfl
  have hfinal : eligibleEntries ((B ++ ['\n']) ++ '\n' :: (A ++ ['\n'])) = [B, A] := by
    rw [eligibleEntries_return_append (B ++ ['\n']) A hA4 hA1 heligA, heligEB]
    rfl
  refine ⟨?_, ?_, rfl, hfinal, ?_⟩
  · unfold eligibleEntries
    rw [hsplitC, eligibleEntriesOfLines_cons, isEligibleLine_append_newline, if_pos heligA,
      pyStrip_append_newline, hA1, eligibleEntriesOfLines_cons, isEligibleLine_append_newline,
      if_pos heligB, pyStrip_append_newline, hB1]
    rfl
  · have hj : joinLines [B ++ ['\n']] = B ++ ['\n'] := by simp [joinLines]
    have hd := dispense_eq_some (A ++ '\n' :: (B ++ ['\n'])) (pyStrip (A ++ ['\n']))
      [B ++ ['\n']] ?hl
    case hl =>
      rw [hsplitC]
      exact ipLoop_first_eligible [] (A ++ ['\n']) [B ++ ['\n']] (by simp)
        (by rw [isEligibleLine_append_newline]; exact heligA)
    rw [pyStrip_append_newline, hA1, hj] at hd
    exact hd
  · rw [hfinal]
    intro heq
    injection heq with h1 h2
    exact hAB h1.symm

/-- C5 witness: the theorem applied to the concrete pool [10.0.0.1, 10.0.0.2]. -/
theorem C5_return_is_append_witness :
    pyStrip "10.0.0.1".data = "10.0.0.1".data ∧
    eligibleEntries ("10.0.0.1".data ++ '\n' :: ("10.0.0.2".data ++ ['\n'])) =
      ["10.0.0.1".data, "10.0.0.2".data] ∧
    get_and_remove_first_ip
        (some ("10.0.0.1".data ++ '\n' :: ("10.0.0.2".data ++ ['\n']))) =
      ⟨some "10.0.0.1".data, some ("10.0.0.2".data ++ ['\n'])⟩ ∧
    return_ip_to_pool (some ("10.0.0.2".data ++ ['\n'])) "10.0.0.1".data =
      some (("10.0.0.2".data ++ ['\n']) ++ '\n' :: ("10.0.0.1".data ++ ['\n'])) ∧
    eligibleEntries (("10.0.0.2".data ++ ['\n']) ++ '\n' :: ("10.0.0.1".data ++ ['\n'])) =
      ["10.0.0.2".data, "10.0.0.1".data] ∧
    eligibleEntries (("10.0.0.2".data ++ ['\n']) ++ '\n' :: ("10.0.0.1".data ++ ['\n'])) ≠
      ["10.0.0.1".data, "10.0.0.2".data] := by
  refine ⟨by decide, ?_⟩
  exact C5_return_is_append "10.0.0.1".data "10.0.0.2".data (by decide) (by decide)
    (by decide) (by decide) (by decide) (by decide) (by decide) (by decide) (by decide)

/-! ## Claim theorems: workflow compensation (C1) -/

/-- C1 counterexample: a request dispensing 198.51.100.7 from the pool
[198.51.100.7, 198.51.100.8] that times out and whose requester DM raises,
with the unguarded channel fallback also raising (certain once the 7200-second
admin wait has outlived the 15-minute interaction-token lifetime), reaches the
TimedOut terminal state with the pool file unchanged from its post-dispense
state: the dispensed IP is never appended back and the pool's eligible-entry
count of that IP drops from one to zero, refuting the claim that the return
happens on every non-Created terminal state even when the notification to the
requester fails. -/
theorem C1_counterexample :
    get_and_remove_first_ip (some "198.51.100.7\n198.51.100.8\n".data) =
      ⟨some "198.51.100.7".data, some "198.51.100.8\n".data⟩ ∧
    (process_admin_decision AdminDecision.timedOut true false false
        (some "198.51.100.8\n".data) "198.51.100.7".data).terminal ≠
      TerminalState.created ∧
    (process_admin_decision AdminDecision.timedOut true false false
        (some "198.51.100.8\n".data) "198.51.100.7".data).uncaught = true ∧
    (process_admin_decision AdminDecision.timedOut true false false
        (some "198.51.100.8\n".data) "198.51.100.7".data).pool =
      some "198.51.100.8\n".data ∧
    (eligibleEntries "198.51.100.7\n198.51.100.8\n".data).count "198.51.100.7".data = 1 ∧
    (eligibleEntries "198.51.100.8\n".data).count "198.51.100.7".data = 0 := by
  exact ⟨by decide, by decide, by decide, by decide, by decide, by decide⟩

/-- C1 (amended): whenever a dispense succeeds, the post-decision processing
returns the reserved IP to the pool exactly once in every terminal state other
than Created provided the branch completes without an uncaught notification
exception; on those completed branches the pool is the post-dispense file with
the IP appended once and the multiset of eligible entries is conserved.  A
CreationFailed branch always completes, because its notifications are guarded;
a Denied or TimedOut branch completes whenever the DM succeeds or the channel
fallback succeeds, so a DM failure alone never blocks the return — but when
the DM and the unguarded fallback both raise, the append is skipped and the IP
is lost.  On Created the pool file is untouched: the IP is consumed and never
returned. -/
theorem C1_compensation_guarded (content : List Char) (ip : Line) (kept : List Char)
    (decision : AdminDecision) (apiOk dmOk fuOk : Bool)
    (h : get_and_remove_first_ip (some content) = ⟨some ip, some kept⟩) :
    ((process_admin_decision decision apiOk dmOk fuOk (some kept) ip).terminal =
        TerminalState.created →
      (process_admin_decision decision apiOk dmOk fuOk (some kept) ip).pool =
        some kept) ∧
    ((process_admin_decision decision apiOk dmOk fuOk (some kept) ip).terminal ≠
        TerminalState.created →
      (process_admin_decision decision apiOk dmOk fuOk (some kept) ip).uncaught = false →
      (process_admin_decision decision apiOk dmOk fuOk (some kept) ip).pool =
        some (kept ++ '\n' :: (ip ++ ['\n'])) ∧
      ∀ e : Line, (eligibleEntries (kept ++ '\n' :: (ip ++ ['\n']))).count e =
        (eligibleEntries content).count e) ∧
    ((process_admin_decision decision apiOk dmOk fuOk (some kept) ip).terminal =
        TerminalState.creationFailed →
      (process_admin_decision decision apiOk dmOk fuOk (some kept) ip).uncaught = false) ∧
    (dmOk = false → fuOk = true →
      (process_admin_decision decision apiOk dmOk fuOk (some kept) ip).uncaught = false) := by
  obtain ⟨helig, hstrip, hnl, hel⟩ := dispense_eligibleEntries content ip kept h
  have hcount : ∀ e : Line, (eligibleEntries (kept ++ '\n' :: (ip ++ ['\n']))).count e =
      (eligibleEntries content).count e := by
    intro e
    rw [eligibleEntries_return_append kept ip hnl hstrip hel, helig]
    simp [List.count_append, List.count_cons, Nat.add_comm]
  refine ⟨?_, ?_, ?_, ?_⟩
  · cases decision <;> cases apiOk <;> cases dmOk <;> cases fuOk <;> intro hc <;>
      first
        | rfl
        | exact TerminalState.noConfusion hc
  · cases decision <;> cases apiOk <;> cases dmOk <;> cases fuOk <;> intro hne hun <;>
      first
        | exact ⟨rfl, hcount⟩
        | exact absurd rfl hne
        | exact Bool.noConfusion hun
  · cases decision <;> cases apiOk <;> cases dmOk <;> cases fuOk <;> intro hc <;>
      first
        | rfl
        | exact TerminalState.noConfusion hc
  · cases decision <;> cases apiOk <;> cases dmOk <;> cases fuOk <;> intro hd hf <;>
      first
        | rfl
        | exact Bool.noConfusion hd
        | exact Bool.noConfusion hf

/-- C1 witness: the amended theorem applied to the pool
[198.51.100.7, 198.51.100.8] with a Denied decision, a failing DM, and a
succeeding channel fallback — the DM failure alone does not block the
return. -/
theorem C1_compensation_guarded_witness :
    get_and_remove_first_ip (some "198.51.100.7\n198.51.100.8\n".data) =
      ⟨some "198.51.100.7".data, some "198.51.100.8\n".data⟩ ∧
    (((process_admin_decision AdminDecision.denied true false true
          (some "198.51.100.8\n".data) "198.51.100.7".data).terminal =
        TerminalState.created →
      (process_admin_decision AdminDecision.denied true false true
          (some "198.51.100.8\n".data) "198.51.100.7".data).pool =
        some "198.51.100.8\n".data) ∧
    ((process_admin_decision AdminDecision.denied true false true
          (some "198.51.100.8\n".data) "198.51.100.7".data).terminal ≠
        TerminalState.created →
      (process_admin_decision AdminDecision.denied true false true
          (some "198.51.100.8\n".data) "198.51.100.7".data).uncaught = false →
      (process_admin_decision AdminDecision.denied true false true
          (some "198.51.100.8\n".data) "198.51.100.7".data).pool =
        some ("198.51.100.8\n".data ++ '\n' :: ("198.51.100.7".data ++ ['\n'])) ∧
      ∀ e : Line,
        (eligibleEntries
            ("198.51.100.8\n".data ++ '\n' :: ("198.51.100.7".data ++ ['\n']))).count e =
        (eligibleEntries "198.51.100.7\n198.51.100.8\n".data).count e) ∧
    ((process_admin_decision AdminDecision.denied true false true
          (some "198.51.100.8\n".data) "198.51.100.7".data).terminal =
        TerminalState.creationFailed →
      (process_admin_decision AdminDecision.denied true false true
          (some "198.51.100.8\n".data) "198.51.100.7".data).uncaught = false) ∧
    (false = false → true = true →
      (process_admin_decision AdminDecision.denied true false true
          (some "198.51.100.8\n".data) "198.51.100.7".data).uncaught = false)) :=
  ⟨by decide,
    C1_compensation_guarded "198.51.100.7\n198.51.100.8\n".data
      "198.51.100.7".data "198.51.100.8\n".data AdminDecision.denied true false true
      (by decide)⟩

/-! ## Claim theorems: validation ordering (C2, C7) and payload units (C6) -/

/-- C2: evaluation at the failing input.  For an invite-plan request with
invite rewards disabled and a pool holding the single IP 203.0.113.5, the
workflow aborts with the invite-rewards-disabled reason, yet the dispense was
already invoked and the pool file is left empty: the IP is removed before the
eligibility checks run and is not restored on the failed check, contradicting
the claim that dispense is invoked only after all validation passes. -/
theorem C2_dispense_before_validation :
    (create_vps_validation_phase
        ⟨PlanType.invite, true, true, true, true, true, true, false, 5, 10⟩
        (some "203.0.113.5\n".data)).abort = some AbortReason.inviteRewardsDisabled ∧
    (create_vps_validation_phase
        ⟨PlanType.invite, true, true, true, true, true, true, false, 5, 10⟩
        (some "203.0.113.5\n".data)).dispenseInvoked = true ∧
    (create_vps_validation_phase
        ⟨PlanType.invite, true, true, true, true, true, true, false, 5, 10⟩
        (some "203.0.113.5\n".data)).pool = some [] ∧
    eligibleEntries "203.0.113.5\n".data = ["203.0.113.5".data] ∧
    eligibleEntries [] = [] := by
  exact ⟨by decide, by decide, by decide, by decide, by decide⟩

/-- C7: a paid-plan request terminates with the contact-support notice before
the dispense call: no IP is reserved and the pool file is returned exactly as
it was. -/
theorem C7_paid_no_dispense (inp : CreateVpsInput) (pool : Option (List Char))
    (h : inp.planType = PlanType.paid) :
    create_vps_validation_phase inp pool =
      ⟨some AbortReason.paidPlanNotice, pool, false, none⟩ := by
  unfold create_vps_validation_phase
  rw [if_pos h]

/-- C7 witness: the theorem applied to a concrete paid-plan request. -/
theorem C7_paid_no_dispense_witness :
    (⟨PlanType.paid, true, true, true, true, true, true, true, 5, 10⟩ :
        CreateVpsInput).planType = PlanType.paid ∧
    create_vps_validation_phase
        ⟨PlanType.paid, true, true, true, true, true, true, true, 5, 10⟩
        (some "203.0.113.5\n".data) =
      ⟨some AbortReason.paidPlanNotice, some "203.0.113.5\n".data, false, none⟩ :=
  ⟨rfl, C7_paid_no_dispense ⟨PlanType.paid, true, true, true, true, true, true, true, 5, 10⟩
    (some "203.0.113.5\n".data) rfl⟩

/-- C6 counterexample: at ram_gb = 1 the payload memory field is 1024 on the
src/main.py path but 1073741824 on the src/bot.py path, so the two code paths
do not use one single multiplier as the claim states. -/
theorem C6_counterexample :
    main_payload_memory ⟨2, 1, 10⟩ = 1 * 1024 ∧
    bot_payload_memory ⟨2, 1, 10⟩ = 1 * 1073741824 ∧
    main_payload_memory ⟨2, 1, 10⟩ ≠ bot_payload_memory ⟨2, 1, 10⟩ := by
  exact ⟨rfl, by decide, by decide⟩

/-- C6 (amended): each code path uses one fixed multiplier for both memory and
disk, but they differ across paths: src/main.py multiplies gigabytes by 1024
(megabytes), checked at the boundary values 1 GB and 64 GB, while src/bot.py
multiplies gigabytes by 1024 * 1024 * 1024 = 1073741824 (bytes). -/
theorem C6_unit_conversion_per_path (p : PlanSpec) :
    main_payload_memory p = p.ram_gb * 1024 ∧
    main_payload_disk p = p.disk_gb * 1024 ∧
    bot_payload_memory p = p.ram_gb * 1073741824 ∧
    bot_payload_disk p = p.disk_gb * 1073741824 ∧
    main_payload_memory ⟨1, 1, 1⟩ = 1024 ∧
    main_payload_memory ⟨1, 64, 64⟩ = 65536 ∧
    bot_payload_memory ⟨1, 1, 1⟩ = 1073741824 := by
  refine ⟨rfl, rfl, ?_, ?_, by decide, by decide, by decide⟩
  · unfold bot_payload_memory
    ring
  · unfold bot_payload_disk
    ring

/-! ## Invite attribution lemmas and claim theorems (C8, C9) -/

theorem findInviterLoop_cons_complete_none (c : String) (u : Int) (i : Nat)
    (rest : List InviteObj) (cache : InviteCache) :
    findInviterLoop (⟨some c, some u, some i⟩ :: rest) cache none =
      if inviteChanged cache c u then findInviterLoop rest cache (some i)
      else findInviterLoop rest cache none := rfl

theorem findInviterLoop_cons_complete_some (c : String) (u : Int) (i : Nat)
    (rest : List InviteObj) (cache : InviteCache) (x : Nat) :
    findInviterLoop (⟨some c, some u, some i⟩ :: rest) cache (some x) =
      if inviteChanged cache c u then none
      else findInviterLoop rest cache (some x) := rfl

theorem findInviterLoop_cons_not_candidate (inv : InviteObj) (rest : List InviteObj)
    (cache : InviteCache) (found : Option Nat) (h : isCandidate cache inv = false) :
    findInviterLoop (inv :: rest) cache found = findInviterLoop rest cache found := by
  rcases inv with ⟨oc, ou, oi⟩
  rcases oc with _ | c
  · rfl
  rcases ou with _ | u
  · rfl
  rcases oi with _ | i
  · rfl
  have hch : inviteChanged cache c u = false := by simpa [isCandidate] using h
  cases found with
  | none => rw [findInviterLoop_cons_complete_none, if_neg (by simp [hch])]
  | some x => rw [findInviterLoop_cons_complete_some, if_neg (by simp [hch])]

theorem findInviterLoop_cons_candidate_some (inv : InviteObj) (rest : List InviteObj)
    (cache : InviteCache) (x : Nat) (h : isCandidate cache inv = true) :
    findInviterLoop (inv :: rest) cache (some x) = none := by
  rcases inv with ⟨oc, ou, oi⟩
  rcases oc with _ | c
  · simp [isCandidate] at h
  rcases ou with _ | u
  · simp [isCandidate] at h
  rcases oi with _ | i
  · simp [isCandidate] at h
  have hch : inviteChanged cache c u = true := by simpa [isCandidate] using h
  rw [findInviterLoop_cons_complete_some, if_pos hch]

theorem findInviterLoop_some_state_none (invites : List InviteObj) (cache : InviteCache)
    (x : Nat) (h : ∃ inv ∈ invites, isCandidate cache inv = true) :
    findInviterLoop invites cache (some x) = none := by
  induction invites with
  | nil =>
    obtain ⟨inv, hm, _⟩ := h
    simp at hm
  | cons inv rest ih =>
    by_cases hc : isCandidate cache inv = true
    · exact findInviterLoop_cons_candidate_some inv rest cache x hc
    · rw [findInviterLoop_cons_not_candidate inv rest cache (some x)
        (by simpa using hc)]
      apply ih
      obtain ⟨inv2, hm, hcand⟩ := h
      rcases List.mem_cons.mp hm with e | m
      · exact absurd (e ▸ hcand) hc
      · exact ⟨inv2, m, hcand⟩

theorem findInviterLoop_two_candidates_none (invites : List InviteObj) (cache : InviteCache)
    (h : 2 ≤ (invites.filter (isCandidate cache)).length) :
    findInviterLoop invites cache none = none := by
  induction invites with
  | nil => simp at h
  | cons inv rest ih =>
    by_cases hc : isCandidate cache inv = true
    · rcases inv with ⟨oc, ou, oi⟩
      rcases oc with _ | c
      · simp [isCandidate] at hc
      rcases ou with _ | u
      · simp [isCandidate] at hc
      rcases oi with _ | i
      · simp [isCandidate] at hc
      have hch : inviteChanged cache c u = true := by simpa [isCandidate] using hc
      rw [findInviterLoop_cons_complete_none, if_pos hch]
      apply findInviterLoop_some_state_none rest cache i
      have hfil : (List.filter (isCandidate cache)
            ((⟨some c, some u, some i⟩ : InviteObj) :: rest)) =
          (⟨some c, some u, some i⟩ : InviteObj) ::
            List.filter (isCandidate cache) rest := by
        simp [List.filter_cons, hc]
      rw [hfil] at h
      have hlen : 1 ≤ (rest.filter (isCandidate cache)).length := by
        simpa using h
      have hne : rest.filter (isCandidate cache) ≠ [] := by
        intro hnil
        rw [hnil] at hlen
        simp at hlen
      obtain ⟨inv2, hm⟩ := List.exists_mem_of_ne_nil _ hne
      exact ⟨inv2, List.mem_of_mem_filter hm, List.of_mem_filter hm⟩
    · rw [findInviterLoop_cons_not_candidate inv rest cache none (by simpa using hc)]
      apply ih
      have hfil : (inv :: rest).filter (isCandidate cache) =
          rest.filter (isCandidate cache) := by
        simp [List.filter_cons, hc]
      rwa [hfil] at h

/-- C8: whenever at least two invites changed relative to the cached snapshot
(a previously-uncached code counting as changed), the attribution loop ends
with no inviter and no counter is incremented — the counts table is returned
unchanged. -/
theorem C8_ambiguous_join_discarded (invites : List InviteObj) (cache : InviteCache)
    (guildId memberId : Nat) (counts : InviteCounts)
    (h : 2 ≤ (invites.filter (isCandidate cache)).length) :
    on_member_join_counts invites cache guildId memberId counts = counts := by
  unfold on_member_join_counts
  rw [findInviterLoop_two_candidates_none invites cache h]

/-- C8 witness: the theorem applied to the claim's concrete scenario — cached
snapshot has codeX at 5; the fresh snapshot has codeX at 6 and an uncached
codeY at 1; both count as changed so the counts table is unchanged. -/
theorem C8_ambiguous_join_discarded_witness :
    2 ≤ (([⟨some "codeX", some 6, some 111⟩, ⟨some "codeY", some 1, some 222⟩] :
        List InviteObj).filter (isCandidate [("codeX", 5)])).length ∧
    on_member_join_counts
        [⟨some "codeX", some 6, some 111⟩, ⟨some "codeY", some 1, some 222⟩]
        [("codeX", 5)] 1 333 [("1", [("111", 4)])] = [("1", [("111", 4)])] :=
  ⟨by decide,
    C8_ambiguous_join_discarded
      [⟨some "codeX", some 6, some 111⟩, ⟨some "codeY", some 1, some 222⟩]
      [("codeX", 5)] 1 333 [("1", [("111", 4)])] (by decide)⟩

/-- C9: when the attribution loop identifies a unique inviter equal to the
joining member (self-invite), no counter is incremented — the counts table is
returned unchanged. -/
theorem C9_self_invite_not_counted (invites : List InviteObj) (cache : InviteCache)
    (guildId memberId : Nat) (counts : InviteCounts)
    (h : findInviterLoop invites cache none = some memberId) :
    on_member_join_counts invites cache guildId memberId counts = counts := by
  unfold on_member_join_counts
  rw [h]
  simp

/-- C9 witness: the theorem applied to a join via the member's own invite. -/
theorem C9_self_invite_not_counted_witness :
    findInviterLoop [⟨some "c", some 1, some 42⟩] [("c", 0)] none = some 42 ∧
    on_member_join_counts [⟨some "c", some 1, some 42⟩] [("c", 0)] 1 42
      [("1", [("42", 7)])] = [("1", [("42", 7)])] :=
  ⟨by decide,
    C9_self_invite_not_counted [⟨some "c", some 1, some 42⟩] [("c", 0)] 1 42
      [("1", [("42", 7)])] (by decide)⟩

/-! ## Password generator lemmas and claim theorem (C10) -/

theorem pyChoice_mem (s : List Char) (i : Nat) (h : s ≠ []) : pyChoice s i ∈ s := by
  unfold pyChoice
  have hlen : 0 < s.length := List.length_pos.mpr h
  have hj : i % s.length < s.length := Nat.mod_lt _ hlen
  rw [List.getD_eq_getElem s 'a' hj]
  exact List.getElem_mem hj

theorem getD_cons_eraseIdx_perm :
    ∀ (l : List Char) (j : Nat), j < l.length →
      List.Perm (l.getD j 'a' :: l.eraseIdx j) l
  | [], j, h => by simp at h
  | a :: t, 0, h => by simp
  | a :: t, j + 1, h => by
    have hj : j < t.length := by simpa using h
    rw [List.getD_cons_succ, List.eraseIdx_cons_succ]
    exact (List.Perm.swap a (t.getD j 'a') (t.eraseIdx j)).trans
      ((getD_cons_eraseIdx_perm t j hj).cons a)

theorem applyShuffle_perm (is : List Nat) (l : List Char) :
    List.Perm (applyShuffle is l) l := by
  induction is generalizing l with
  | nil => exact List.Perm.refl l
  | cons i is ih =>
    cases l with
    | nil => exact List.Perm.refl []
    | cons a t =>
      show List.Perm ((a :: t).getD (i % (a :: t).length) 'a' ::
        applyShuffle is ((a :: t).eraseIdx (i % (a :: t).length))) (a :: t)
      have hj : i % (a :: t).length < (a :: t).length := Nat.mod_lt _ (by simp)
      exact ((ih ((a :: t).eraseIdx (i % (a :: t).length))).cons _).trans
        (getD_cons_eraseIdx_perm (a :: t) _ hj)

theorem generate_password_shape (length : Int) (picks : Nat → Nat) (shuffleIdx : List Nat) :
    ∃ fills : List Char,
      generate_compliant_password length picks shuffleIdx =
        applyShuffle shuffleIdx
          ([pyChoice lower_chars (picks 0), pyChoice upper_chars (picks 1),
            pyChoice digit_chars (picks 2),
            pyChoice guaranteed_special_char_set (picks 3)] ++ fills) ∧
      4 + fills.length = (if 8 ≤ length ∧ length ≤ 50 then length.toNat else 16) := by
  by_cases h : 8 ≤ length ∧ length ≤ 50
  · refine ⟨(List.range (length - 4).toNat).map
      (fun k => pyChoice all_fill_chars (picks (4 + k))), ?_, ?_⟩
    · simp only [generate_compliant_password]
      have e1 : (if ¬(8 ≤ length ∧ length ≤ 50) then (16 : Int) else length) = length :=
        if_neg (not_not_intro h)
      rw [e1]
      have e2 : (if length < 4 then (8 : Int) else length) = length := if_neg (by omega)
      rw [e2]
      rw [if_pos (show (0 : Int) < length - 4 by omega)]
    · rw [if_pos h]
      simp only [List.length_map, List.length_range]
      omega
  · refine ⟨(List.range ((16 : Int) - 4).toNat).map
      (fun k => pyChoice all_fill_chars (picks (4 + k))), ?_, ?_⟩
    · simp only [generate_compliant_password]
      have e1 : (if ¬(8 ≤ length ∧ length ≤ 50) then (16 : Int) else length) = 16 :=
        if_pos h
      rw [e1]
      have e2 : (if (16 : Int) < 4 then (8 : Int) else 16) = 16 := if_neg (by omega)
      rw [e2]
      rw [if_pos (show (0 : Int) < 16 - 4 by omega)]
    · rw [if_neg h]
      simp only [List.length_map, List.length_range]
      omega

/-- C10: for every requested length, index stream, and shuffle control, the
generated password has length exactly the requested length when it is between
8 and 50 inclusive and exactly 16 otherwise, and contains at least one
lowercase letter, one uppercase letter, one digit, and one character from the
special set. -/
theorem C10_password_compliance (length : Int) (picks : Nat → Nat) (shuffleIdx : List Nat) :
    (generate_compliant_password length picks shuffleIdx).length =
      (if 8 ≤ length ∧ length ≤ 50 then length.toNat else 16) ∧
    (∃ c ∈ generate_compliant_password length picks shuffleIdx, c ∈ lower_chars) ∧
    (∃ c ∈ generate_compliant_password length picks shuffleIdx, c ∈ upper_chars) ∧
    (∃ c ∈ generate_compliant_password length picks shuffleIdx, c ∈ digit_chars) ∧
    (∃ c ∈ generate_compliant_password length picks shuffleIdx,
      c ∈ guaranteed_special_char_set) := by
  obtain ⟨fills, heq, hlen⟩ := generate_password_shape length picks shuffleIdx
  have hperm := applyShuffle_perm shuffleIdx
    ([pyChoice lower_chars (picks 0), pyChoice upper_chars (picks 1),
      pyChoice digit_chars (picks 2),
      pyChoice guaranteed_special_char_set (picks 3)] ++ fills)
  refine ⟨?_, ?_, ?_, ?_, ?_⟩
  · rw [heq, hperm.length_eq, List.length_append]
    simpa using hlen
  · exact ⟨pyChoice lower_chars (picks 0),
      by rw [heq]; exact hperm.mem_iff.mpr (List.mem_append_left _ (by simp)),
      pyChoice_mem _ _ (by decide)⟩
  · exact ⟨pyChoice upper_chars (picks 1),
      by rw [heq]; exact hperm.mem_iff.mpr (List.mem_append_left _ (by simp)),
      pyChoice_mem _ _ (by decide)⟩
  · exact ⟨pyChoice digit_chars (picks 2),
      by rw [heq]; exact hperm.mem_iff.mpr (List.mem_append_left _ (by simp)),
      pyChoice_mem _ _ (by decide)⟩
  · exact ⟨pyChoice guaranteed_special_char_set (picks 3),
      by rw [heq]; exact hperm.mem_iff.mpr (List.mem_append_left _ (by simp)),
      pyChoice_mem _ _ (by decide)⟩

end VN
